import Mathlib

/-!
Shallow embedding of the seqHMM dynamic-programming core:
`internalForward` (src/internalForward.cpp) and `viterbix`
(src/viterbix.cpp), over exact real arithmetic, together with
theorems about the recursions they implement.

Armadillo's extremum operations (`.max(uword&)`, `.index_max()`,
`.max()`) return the first occurrence of the maximum; they are embedded
by `argmaxFirst` and `vecMax` below.
-/

namespace SeqHMM

/-- First index attaining the maximum of `f` over `0, …, n-1`
(Armadillo `index_max` / `.max(uword&)` semantics: a later index
replaces the current best only on a strictly larger value).
For `n = 0` the result is the junk value `0`. -/
def argmaxFirst {α : Type} [LinearOrder α] (f : ℕ → α) : ℕ → ℕ
  | 0 => 0
  | n + 1 => if f (argmaxFirst f n) < f n then n else argmaxFirst f n

/-- Maximum of `f` over `0, …, n-1` (Armadillo `.max()` semantics),
realised as the value at the first argmax. -/
def vecMax {α : Type} [LinearOrder α] (f : ℕ → α) (n : ℕ) : α :=
  f (argmaxFirst f n)

theorem argmaxFirst_lt {α : Type} [LinearOrder α] (f : ℕ → α) :
    ∀ n : ℕ, 0 < n → argmaxFirst f n < n := by
  intro n hn
  induction n with
  | zero => omega
  | succ m ih =>
    rw [argmaxFirst]
    split
    · omega
    · rcases Nat.eq_zero_or_pos m with hm | hm
      · subst hm; simp [argmaxFirst]
      · exact Nat.lt_succ_of_lt (ih hm)

theorem le_argmaxFirst {α : Type} [LinearOrder α] (f : ℕ → α) :
    ∀ n i : ℕ, i < n → f i ≤ f (argmaxFirst f n) := by
  intro n
  induction n with
  | zero => intro i hi; omega
  | succ m ih =>
    intro i hi
    rw [argmaxFirst]
    split
    · rename_i hlt
      rcases Nat.lt_succ_iff_lt_or_eq.mp hi with hi' | hi'
      · exact le_trans (ih i hi') (le_of_lt hlt)
      · subst hi'; exact le_refl _
    · rename_i hnlt
      rcases Nat.lt_succ_iff_lt_or_eq.mp hi with hi' | hi'
      · exact ih i hi'
      · subst hi'; exact le_of_not_lt hnlt

theorem lt_of_lt_argmaxFirst {α : Type} [LinearOrder α] (f : ℕ → α) :
    ∀ n i : ℕ, i < argmaxFirst f n → f i < f (argmaxFirst f n) := by
  intro n
  induction n with
  | zero => intro i hi; simp [argmaxFirst] at hi
  | succ m ih =>
    intro i hi
    rw [argmaxFirst] at hi ⊢
    by_cases hc : f (argmaxFirst f m) < f m
    · rw [if_pos hc] at hi ⊢
      exact lt_of_le_of_lt (le_argmaxFirst f m i hi) hc
    · rw [if_neg hc] at hi ⊢
      exact ih i hi

/-- `argmaxFirst` only reads `f` on `0, …, n-1`. -/
theorem argmaxFirst_congr {α : Type} [LinearOrder α] (f g : ℕ → α) :
    ∀ n : ℕ, (∀ i, i < n → f i = g i) → argmaxFirst f n = argmaxFirst g n := by
  intro n
  induction n with
  | zero => intro _; rfl
  | succ m ih =>
    intro h
    have hm : ∀ i, i < m → f i = g i := fun i hi => h i (Nat.lt_succ_of_lt hi)
    have ha : argmaxFirst f m = argmaxFirst g m := ih hm
    rcases Nat.eq_zero_or_pos m with h0 | h0
    · subst h0; simp [argmaxFirst]
    · have hlt : argmaxFirst f m < m := argmaxFirst_lt f m h0
      rw [argmaxFirst, argmaxFirst, ha, h m (Nat.lt_succ_self m),
        h (argmaxFirst g m) (Nat.lt_succ_of_lt (ha ▸ hlt))]

theorem vecMax_congr {α : Type} [LinearOrder α] (f g : ℕ → α) (n : ℕ)
    (hn : 0 < n) (h : ∀ i, i < n → f i = g i) : vecMax f n = vecMax g n := by
  unfold vecMax
  rw [argmaxFirst_congr f g n h]
  exact h _ (argmaxFirst_lt g n hn)

theorem argmaxFirst_one {α : Type} [LinearOrder α] (f : ℕ → α) :
    argmaxFirst f 1 = 0 := by
  show argmaxFirst f (0 + 1) = 0
  rw [argmaxFirst]
  simp [argmaxFirst]

theorem argmaxFirst_two {α : Type} [LinearOrder α] (f : ℕ → α) :
    argmaxFirst f 2 = if f 0 < f 1 then 1 else 0 := by
  show argmaxFirst f (1 + 1) = _
  rw [argmaxFirst, argmaxFirst_one]

/-- Modelled from the spec: the `logSumExp` primitive used by the forward
engine (its definition is not among the files under src/; §4.1 of the spec
gives its contract and required algorithm): find the maximum element `m`
of the vector and return `m + log (Σ exp (xᵢ − m))`. -/
noncomputable def logSumExp (x : List ℝ) : ℝ :=
  x.foldl max (x.headD 0) +
    Real.log ((x.map fun v => Real.exp (v - x.foldl max (x.headD 0))).sum)

theorem sum_map_exp_pos (x : List ℝ) (hx : x ≠ []) :
    0 < (x.map Real.exp).sum := by
  cases x with
  | nil => exact absurd rfl hx
  | cons a l =>
    simp only [List.map_cons, List.sum_cons]
    have h1 : 0 < Real.exp a := Real.exp_pos a
    have h2 : 0 ≤ (l.map Real.exp).sum := by
      apply List.sum_nonneg
      intro v hv
      rcases List.mem_map.mp hv with ⟨w, _, rfl⟩
      exact le_of_lt (Real.exp_pos w)
    linarith

theorem sum_map_exp_shift (x : List ℝ) (m : ℝ) :
    (x.map fun v => Real.exp (v - m)).sum = (x.map Real.exp).sum * Real.exp (-m) := by
  induction x with
  | nil => simp
  | cons a l ih =>
    simp only [List.map_cons, List.sum_cons, ih, add_mul]
    rw [sub_eq_add_neg, Real.exp_add]

/-- In exact arithmetic the max-shifted `logSumExp` equals
`log (Σ exp xᵢ)` for every nonempty input. -/
theorem logSumExp_eq (x : List ℝ) (hx : x ≠ []) :
    logSumExp x = Real.log ((x.map Real.exp).sum) := by
  unfold logSumExp
  rw [sum_map_exp_shift,
    Real.log_mul (ne_of_gt (sum_map_exp_pos x hx)) (Real.exp_ne_zero _),
    Real.log_exp]
  ring

/-- Sum of `f` over `List.range n` as a `Finset.range` sum. -/
theorem list_range_map_sum (f : ℕ → ℝ) :
    ∀ n : ℕ, ((List.range n).map f).sum = ∑ j ∈ Finset.range n, f j := by
  intro n
  induction n with
  | zero => simp
  | succ m ih =>
    rw [List.range_succ, List.map_append, List.sum_append,
      Finset.sum_range_succ, ih]
    simp

section Forward

variable (S C : ℕ) (transition : ℕ → ℕ → ℝ) (emission : ℕ → ℕ → ℕ → ℝ)
variable (init : ℕ → ℝ) (obs : ℕ → ℕ → ℕ → ℕ) (k : ℕ)

/-- The forward table of `internalForward` for sequence `k`:
`alpha … t i` is the entry the C++ code writes into `alpha(i, t, k)`.
`obs` is indexed as in the code, `obs(k, t, r)`; `transition (j) (i)` is
`transition(j, i)`; `emission (i) (m) (r)` is `emission(i, m, r)`. -/
noncomputable def alpha : ℕ → ℕ → ℝ
  | 0, i => init i + ∑ r ∈ Finset.range C, emission i (obs k 0 r) r
  | t + 1, i =>
      logSumExp ((List.range S).map fun j => alpha t j + transition j i) +
        ∑ r ∈ Finset.range C, emission i (obs k (t + 1) r) r

/-- **C1.** The forward table satisfies the spec's recursion: at `t = 0`
each entry is the initial log-probability plus the summed multi-channel
emission log-probabilities, and at `t + 1` it is the log-sum-exp over
predecessor states of the previous column plus the transition column,
plus the summed emission log-probabilities. -/
theorem forward_recursion (i t : ℕ) (hS : 0 < S) :
    alpha S C transition emission init obs k 0 i =
      init i + ∑ r ∈ Finset.range C, emission i (obs k 0 r) r ∧
    alpha S C transition emission init obs k (t + 1) i =
      Real.log (∑ j ∈ Finset.range S,
          Real.exp (alpha S C transition emission init obs k t j + transition j i)) +
        ∑ r ∈ Finset.range C, emission i (obs k (t + 1) r) r := by
  constructor
  · rfl
  · rw [alpha]
    have hne : (List.range S).map
        (fun j => alpha S C transition emission init obs k t j + transition j i) ≠ [] := by
      simp [List.range_eq_nil]
      omega
    rw [logSumExp_eq _ hne, List.map_map]
    rw [show ((fun v => Real.exp v) ∘ fun j =>
        alpha S C transition emission init obs k t j + transition j i)
      = fun j => Real.exp (alpha S C transition emission init obs k t j + transition j i)
      from rfl]
    rw [list_range_map_sum]

/-- Witness for `forward_recursion` at a concrete 2-state, 1-channel model. -/
theorem forward_recursion_witness :
    (0 : ℕ) < 2 ∧
    (alpha 2 1 (fun _ _ => (0 : ℝ)) (fun _ _ _ => (0 : ℝ)) (fun _ => (0 : ℝ))
        (fun _ _ _ => 0) 0 0 0 =
      (fun _ : ℕ => (0 : ℝ)) 0 + ∑ r ∈ Finset.range 1,
        (fun _ _ _ => (0 : ℝ)) 0 ((fun _ _ _ => (0 : ℕ)) 0 0 r) r ∧
    alpha 2 1 (fun _ _ => (0 : ℝ)) (fun _ _ _ => (0 : ℝ)) (fun _ => (0 : ℝ))
        (fun _ _ _ => 0) 0 (0 + 1) 0 =
      Real.log (∑ j ∈ Finset.range 2,
          Real.exp (alpha 2 1 (fun _ _ => (0 : ℝ)) (fun _ _ _ => (0 : ℝ))
            (fun _ => (0 : ℝ)) (fun _ _ _ => 0) 0 0 j + (fun _ _ => (0 : ℝ)) j 0)) +
        ∑ r ∈ Finset.range 1,
          (fun _ _ _ => (0 : ℝ)) 0 ((fun _ _ _ => (0 : ℕ)) 0 (0 + 1) r) r) :=
  ⟨by decide,
    forward_recursion 2 1 (fun _ _ => (0 : ℝ)) (fun _ _ _ => (0 : ℝ))
      (fun _ => (0 : ℝ)) (fun _ _ _ => 0) 0 0 0 (by decide)⟩

end Forward

section Viterbi

/-- Modelled from the spec: `reparma` (its definition is not among the
files under src/) broadcasts each mixture cluster's value to the
contiguous block of states belonging to that cluster, the block sizes
being given by `numberOfStates` (§4.3: "states are grouped contiguously
by cluster per `numberOfStates`"). `clusterOf sizes s` is the cluster
index of state `s`, so that entry `s` of
`reparma(w, numberOfStates)` is `w (clusterOf numberOfStates s)`. -/
def clusterOf : List ℕ → ℕ → ℕ
  | [], _ => 0
  | n :: rest, s => if s < n then 0 else clusterOf rest (s - n) + 1

variable (S C nC P : ℕ) (transition : ℕ → ℕ → ℝ) (emission : ℕ → ℕ → ℕ → ℝ)
variable (init : ℕ → ℝ) (numberOfStates : List ℕ) (coef X : ℕ → ℕ → ℝ)
variable (obs : ℕ → ℕ → ℕ → ℕ) (k : ℕ)

/-- Entry `(k, c)` of `X * coef`: the linear predictor of sequence `k`
for cluster `c` (`P` is the number of columns of `X`). -/
noncomputable def linPred (k c : ℕ) : ℝ :=
  ∑ p ∈ Finset.range P, X k p * coef p c

/-- `lweights(c, k)` of `viterbix`: exponentiate the transposed linear
predictor matrix, divide each column (sequence) by its sum over the
`nC` clusters, then take the log. -/
noncomputable def lweights (c k : ℕ) : ℝ :=
  Real.log (Real.exp (linPred P coef X k c) /
    ∑ b ∈ Finset.range nC, Real.exp (linPred P coef X k b))

/-- The summed multi-channel emission log-probability
`Σ_r emission(j, obs(r, t, k), r)` added to `delta(j, t)`
(`obs` is indexed as in `viterbix`: `obs(r, t, k)`). -/
noncomputable def vEmis (j t : ℕ) : ℝ :=
  ∑ r ∈ Finset.range C, emission j (obs r t k) r

/-- The `delta` table of `viterbix` for sequence `k`: `delta … t j` is
`delta(j, t)`. Column 0 is `init + reparma(lweights.col(k),
numberOfStates)` plus the emission terms; column `t + 1` maximizes
`delta(i, t) + transition(i, j)` over predecessors `i < S` (first
occurrence of the maximum, matching Armadillo `.max(uword&)`). -/
noncomputable def delta : ℕ → ℕ → ℝ
  | 0, j => init j + lweights nC P coef X (clusterOf numberOfStates j) k +
      vEmis C emission obs k j 0
  | t + 1, j =>
      delta t (argmaxFirst
          (fun i => delta t i + transition i j) S) +
        transition (argmaxFirst (fun i => delta t i + transition i j) S) j +
        vEmis C emission obs k j (t + 1)

/-- The backpointer table of `viterbix` for sequence `k`:
`phi … t j` is `phi(j, t)`; column 0 is the unused sentinel 0. -/
noncomputable def phi : ℕ → ℕ → ℕ
  | 0, _ => 0
  | t + 1, j => argmaxFirst
      (fun i => delta S C nC P transition emission init numberOfStates coef X obs k t i +
        transition i j) S

/-- Backtracking of `viterbix`, counted backwards from the end:
`qRev … T d` is the state of the returned path at time `T - 1 - d`. -/
noncomputable def qRev (T : ℕ) : ℕ → ℕ
  | 0 => argmaxFirst
      (fun j => delta S C nC P transition emission init numberOfStates coef X obs k
        (T - 1) j) S
  | d + 1 => phi S C nC P transition emission init numberOfStates coef X obs k
      (T - 1 - d)
      (qRev T d)

/-- The path `q(k, t)` returned by `viterbix` for sequence `k`
(`T` is `obs.n_cols`). -/
noncomputable def q (T t : ℕ) : ℕ :=
  qRev S C nC P transition emission init numberOfStates coef X obs k T (T - 1 - t)

/-- The log-probability `logp(k)` returned by `viterbix`:
the maximum of the last `delta` column. -/
noncomputable def logp (T : ℕ) : ℝ :=
  vecMax (fun j => delta S C nC P transition emission init numberOfStates coef X obs k
    (T - 1) j) S

/-- Joint log-probability of a state path `p` for sequence `k` up to
time `t`: cluster-weighted initial log-distribution at `p 0`, the
transition log-probabilities along the path and the multi-channel
emission log-probabilities of the observations. -/
noncomputable def pathScore (p : ℕ → ℕ) : ℕ → ℝ
  | 0 => init (p 0) + lweights nC P coef X (clusterOf numberOfStates (p 0)) k +
      vEmis C emission obs k (p 0) 0
  | t + 1 => pathScore p t + transition (p t) (p (t + 1)) +
      vEmis C emission obs k (p (t + 1)) (t + 1)

/-- The backtracking step of `viterbix`: for `t + 1 ≤ T − 1`,
`q(k, t) = phi(q(k, t+1), t+1)`. -/
theorem q_step (T t : ℕ) (ht : t + 1 ≤ T - 1) :
    q S C nC P transition emission init numberOfStates coef X obs k T t =
      phi S C nC P transition emission init numberOfStates coef X obs k (t + 1)
        (q S C nC P transition emission init numberOfStates coef X obs k T (t + 1)) := by
  have h1 : T - 1 - t = (T - 1 - (t + 1)) + 1 := by omega
  have h2 : T - 1 - (T - 1 - (t + 1)) = t + 1 := by omega
  rw [q, h1, qRev, h2]
  rfl

/-- The state of the returned path is always a valid state index. -/
theorem qRev_lt (T : ℕ) (hS : 0 < S) :
    ∀ d : ℕ, qRev S C nC P transition emission init numberOfStates coef X obs k T d < S := by
  intro d
  induction d with
  | zero => exact argmaxFirst_lt _ S hS
  | succ d _ =>
    rw [qRev]
    cases h : T - 1 - d with
    | zero => simp only [phi]; exact hS
    | succ u => simp only [phi]; exact argmaxFirst_lt _ S hS

theorem logp_eq_delta_q (T : ℕ) :
    logp S C nC P transition emission init numberOfStates coef X obs k T =
      delta S C nC P transition emission init numberOfStates coef X obs k (T - 1)
        (q S C nC P transition emission init numberOfStates coef X obs k T (T - 1)) := by
  rw [logp, vecMax, q, Nat.sub_self, qRev]

/-- **C3.** For every `t ≥ 1` and every state `j`, the backpointer
`phi(j, t)` is a valid state index, it attains the maximum of
`delta(i, t−1) + transition(i, j)` over predecessors `i`, and every
strictly smaller index has a strictly smaller score — so whenever two
or more predecessors attain the maximum, `phi(j, t)` is the lowest
such index (first occurrence), deterministically. -/
theorem viterbi_tiebreak (t j : ℕ) (hS : 0 < S) :
    phi S C nC P transition emission init numberOfStates coef X obs k (t + 1) j < S ∧
    (∀ i, i < S →
      delta S C nC P transition emission init numberOfStates coef X obs k t i +
          transition i j ≤
        delta S C nC P transition emission init numberOfStates coef X obs k t
            (phi S C nC P transition emission init numberOfStates coef X obs k (t + 1) j) +
          transition
            (phi S C nC P transition emission init numberOfStates coef X obs k (t + 1) j) j) ∧
    (∀ i, i < phi S C nC P transition emission init numberOfStates coef X obs k (t + 1) j →
      delta S C nC P transition emission init numberOfStates coef X obs k t i +
          transition i j <
        delta S C nC P transition emission init numberOfStates coef X obs k t
            (phi S C nC P transition emission init numberOfStates coef X obs k (t + 1) j) +
          transition
            (phi S C nC P transition emission init numberOfStates coef X obs k (t + 1) j) j) := by
  refine ⟨argmaxFirst_lt _ S hS, ?_, ?_⟩
  · intro i hi
    exact le_argmaxFirst
      (fun i => delta S C nC P transition emission init numberOfStates coef X obs k t i +
        transition i j) S i hi
  · intro i hi
    exact lt_of_lt_argmaxFirst
      (fun i => delta S C nC P transition emission init numberOfStates coef X obs k t i +
        transition i j) S i hi

/-- Witness for `viterbi_tiebreak` at a concrete 2-state model with a
tie between both predecessors. -/
theorem viterbi_tiebreak_witness :
    (0 : ℕ) < 2 ∧
    phi 2 1 1 1 (fun _ _ => (0 : ℝ)) (fun _ _ _ => (0 : ℝ)) (fun _ => (0 : ℝ)) [2]
      (fun _ _ => (0 : ℝ)) (fun _ _ => (0 : ℝ)) (fun _ _ _ => 0) 0 (0 + 1) 0 < 2 := by
  refine ⟨by decide, ?_⟩
  exact (viterbi_tiebreak 2 1 1 1 (fun _ _ => (0 : ℝ)) (fun _ _ _ => (0 : ℝ))
    (fun _ => (0 : ℝ)) [2] (fun _ _ => (0 : ℝ)) (fun _ _ => (0 : ℝ))
    (fun _ _ _ => 0) 0 0 0 (by decide)).1

/-- **C4.** The exponentiated mixture weights of `viterbix` sum to 1
across the `nC` clusters for every sequence, in exact arithmetic. -/
theorem mixture_softmax_normalization (hnC : 0 < nC) (k' : ℕ) :
    ∑ c ∈ Finset.range nC, Real.exp (lweights nC P coef X c k') = 1 := by
  have hpos : 0 < ∑ b ∈ Finset.range nC, Real.exp (linPred P coef X k' b) :=
    Finset.sum_pos (fun b _ => Real.exp_pos _)
      (Finset.nonempty_range_iff.mpr (Nat.pos_iff_ne_zero.mp hnC))
  have hterm : ∀ c ∈ Finset.range nC, Real.exp (lweights nC P coef X c k')
      = Real.exp (linPred P coef X k' c) /
        ∑ b ∈ Finset.range nC, Real.exp (linPred P coef X k' b) := by
    intro c _
    rw [lweights, Real.exp_log (div_pos (Real.exp_pos _) hpos)]
  rw [Finset.sum_congr rfl hterm, ← Finset.sum_div, div_self (ne_of_gt hpos)]

/-- Witness for `mixture_softmax_normalization` with two clusters. -/
theorem mixture_softmax_normalization_witness :
    (0 : ℕ) < 2 ∧
    ∑ c ∈ Finset.range 2,
      Real.exp (lweights 2 1 (fun _ _ => (0 : ℝ)) (fun _ _ => (0 : ℝ)) c 0) = 1 :=
  ⟨by decide, mixture_softmax_normalization 2 1 (fun _ _ => (0 : ℝ))
    (fun _ _ => (0 : ℝ)) (by decide) 0⟩

/-- **C5.** Termination and backtracking of `viterbix`: the final path
state is the (first) argmax of the last `delta` column, `logp(k)` is
the maximum of that column and is attained at the final path state,
and every earlier path state follows the backpointers:
`q(k, t) = phi(q(k, t+1), t+1)` for `t = T−2 … 0`. -/
theorem viterbi_termination_backtracking (T : ℕ) (hS : 0 < S) (hT : 0 < T) :
    q S C nC P transition emission init numberOfStates coef X obs k T (T - 1) =
      argmaxFirst
        (fun j => delta S C nC P transition emission init numberOfStates coef X obs k
          (T - 1) j) S ∧
    (∀ j, j < S →
      delta S C nC P transition emission init numberOfStates coef X obs k (T - 1) j ≤
        logp S C nC P transition emission init numberOfStates coef X obs k T) ∧
    logp S C nC P transition emission init numberOfStates coef X obs k T =
      delta S C nC P transition emission init numberOfStates coef X obs k (T - 1)
        (q S C nC P transition emission init numberOfStates coef X obs k T (T - 1)) ∧
    (∀ t, t + 1 ≤ T - 1 →
      q S C nC P transition emission init numberOfStates coef X obs k T t =
        phi S C nC P transition emission init numberOfStates coef X obs k (t + 1)
          (q S C nC P transition emission init numberOfStates coef X obs k T (t + 1))) := by
  refine ⟨?_, ?_, logp_eq_delta_q S C nC P transition emission init numberOfStates
    coef X obs k T, fun t ht => q_step S C nC P transition emission init numberOfStates
    coef X obs k T t ht⟩
  · rw [q, Nat.sub_self, qRev]
  · intro j hj
    exact le_argmaxFirst
      (fun j => delta S C nC P transition emission init numberOfStates coef X obs k
        (T - 1) j) S j hj

/-- Witness for `viterbi_termination_backtracking` at a concrete
2-state, 2-step model. -/
theorem viterbi_termination_backtracking_witness :
    (0 : ℕ) < 2 ∧ (0 : ℕ) < 2 ∧
    q 2 1 1 1 (fun _ _ => (0 : ℝ)) (fun _ _ _ => (0 : ℝ)) (fun _ => (0 : ℝ)) [2]
        (fun _ _ => (0 : ℝ)) (fun _ _ => (0 : ℝ)) (fun _ _ _ => 0) 0 2 (2 - 1) =
      argmaxFirst
        (fun j => delta 2 1 1 1 (fun _ _ => (0 : ℝ)) (fun _ _ _ => (0 : ℝ))
          (fun _ => (0 : ℝ)) [2] (fun _ _ => (0 : ℝ)) (fun _ _ => (0 : ℝ))
          (fun _ _ _ => 0) 0 (2 - 1) j) 2 := by
  refine ⟨by decide, by decide, ?_⟩
  exact (viterbi_termination_backtracking 2 1 1 1 (fun _ _ => (0 : ℝ))
    (fun _ _ _ => (0 : ℝ)) (fun _ => (0 : ℝ)) [2] (fun _ _ => (0 : ℝ))
    (fun _ _ => (0 : ℝ)) (fun _ _ _ => 0) 0 2 (by decide) (by decide)).1

/-- `pathScore … p t` only reads `p` on `0, …, t`. -/
theorem pathScore_congr (p p' : ℕ → ℕ) :
    ∀ t : ℕ, (∀ s, s ≤ t → p s = p' s) →
      pathScore C nC P transition emission init numberOfStates coef X obs k p t =
        pathScore C nC P transition emission init numberOfStates coef X obs k p' t := by
  intro t
  induction t with
  | zero => intro h; rw [pathScore, pathScore, h 0 (le_refl 0)]
  | succ t ih =>
    intro h
    rw [pathScore, pathScore, ih (fun s hs => h s (Nat.le_succ_of_le hs)),
      h t (Nat.le_succ t), h (t + 1) (le_refl _)]

/-- `delta(j, t)` dominates the score of every valid path ending in
state `j` at time `t`. -/
theorem pathScore_le_delta (p : ℕ → ℕ) :
    ∀ t : ℕ, (∀ s, s ≤ t → p s < S) →
      pathScore C nC P transition emission init numberOfStates coef X obs k p t ≤
        delta S C nC P transition emission init numberOfStates coef X obs k t (p t) := by
  intro t
  induction t with
  | zero => intro _; rw [pathScore, delta]
  | succ t ih =>
    intro hp
    have h1 : pathScore C nC P transition emission init numberOfStates coef X obs k p t ≤
        delta S C nC P transition emission init numberOfStates coef X obs k t (p t) :=
      ih (fun s hs => hp s (Nat.le_succ_of_le hs))
    have h2 : delta S C nC P transition emission init numberOfStates coef X obs k t (p t) +
        transition (p t) (p (t + 1)) ≤
        delta S C nC P transition emission init numberOfStates coef X obs k t
            (argmaxFirst (fun i =>
              delta S C nC P transition emission init numberOfStates coef X obs k t i +
                transition i (p (t + 1))) S) +
          transition (argmaxFirst (fun i =>
              delta S C nC P transition emission init numberOfStates coef X obs k t i +
                transition i (p (t + 1))) S) (p (t + 1)) :=
      le_argmaxFirst (fun i =>
        delta S C nC P transition emission init numberOfStates coef X obs k t i +
          transition i (p (t + 1))) S (p t) (hp t (Nat.le_succ t))
    rw [pathScore, delta]
    linarith

/-- The backtracked path attains `delta` at every time step. -/
theorem pathScore_q_eq_delta (T : ℕ) (hS : 0 < S) :
    ∀ t : ℕ, t ≤ T - 1 →
      pathScore C nC P transition emission init numberOfStates coef X obs k
          (fun s => q S C nC P transition emission init numberOfStates coef X obs k T s) t =
        delta S C nC P transition emission init numberOfStates coef X obs k t
          (q S C nC P transition emission init numberOfStates coef X obs k T t) := by
  intro t
  induction t with
  | zero => intro _; rw [pathScore, delta]
  | succ t ih =>
    intro ht
    have hstep := q_step S C nC P transition emission init numberOfStates coef X obs k T t ht
    rw [phi] at hstep
    rw [pathScore, delta, ih (le_trans (Nat.le_succ t) ht), hstep]

/-- **C2.** Global optimality of `viterbix`: for every sequence `k`,
`logp(k)` bounds from above the joint log-probability (cluster-weighted
initial step, transitions, multi-channel emissions) of every state path
of length `T`, the returned path `q(k, ·)` consists of valid state
indices, and its joint log-probability equals `logp(k)` — the returned
path attains the maximum over all `S^T` state sequences. -/
theorem viterbi_optimality (T : ℕ) (hS : 0 < S) (hT : 0 < T) :
    (∀ p : ℕ → ℕ, (∀ t, t < T → p t < S) →
      pathScore C nC P transition emission init numberOfStates coef X obs k p (T - 1) ≤
        logp S C nC P transition emission init numberOfStates coef X obs k T) ∧
    (∀ t, t < T → q S C nC P transition emission init numberOfStates coef X obs k T t < S) ∧
    pathScore C nC P transition emission init numberOfStates coef X obs k
        (fun s => q S C nC P transition emission init numberOfStates coef X obs k T s)
        (T - 1) =
      logp S C nC P transition emission init numberOfStates coef X obs k T := by
  refine ⟨?_, ?_, ?_⟩
  · intro p hp
    have h1 := pathScore_le_delta S C nC P transition emission init numberOfStates coef X
      obs k p (T - 1) (fun s hs => hp s (by omega))
    have h2 := le_argmaxFirst (fun j =>
      delta S C nC P transition emission init numberOfStates coef X obs k (T - 1) j) S
      (p (T - 1)) (hp (T - 1) (by omega))
    rw [logp, vecMax]
    exact le_trans h1 h2
  · intro t _
    exact qRev_lt S C nC P transition emission init numberOfStates coef X obs k T hS _
  · rw [pathScore_q_eq_delta S C nC P transition emission init numberOfStates coef X
      obs k T hS (T - 1) (le_refl _), logp_eq_delta_q]

/-- Witness for `viterbi_optimality` at a concrete 2-state, 2-step model. -/
theorem viterbi_optimality_witness :
    (0 : ℕ) < 2 ∧ (0 : ℕ) < 2 ∧
    ∀ t, t < 2 →
      q 2 1 1 1 (fun _ _ => (0 : ℝ)) (fun _ _ _ => (0 : ℝ)) (fun _ => (0 : ℝ)) [2]
        (fun _ _ => (0 : ℝ)) (fun _ _ => (0 : ℝ)) (fun _ _ _ => 0) 0 2 t < 2 := by
  refine ⟨by decide, by decide, ?_⟩
  exact (viterbi_optimality 2 1 1 1 (fun _ _ => (0 : ℝ)) (fun _ _ _ => (0 : ℝ))
    (fun _ => (0 : ℝ)) [2] (fun _ _ => (0 : ℝ)) (fun _ _ => (0 : ℝ))
    (fun _ _ _ => 0) 0 2 (by decide) (by decide)).2.1

end Viterbi

section Independence

variable (S C nC P : ℕ) (transition : ℕ → ℕ → ℝ) (emission : ℕ → ℕ → ℕ → ℝ)
variable (init : ℕ → ℝ) (numberOfStates : List ℕ) (coef : ℕ → ℕ → ℝ)
variable (X X' : ℕ → ℕ → ℝ) (obsF obsF' obsV obsV' : ℕ → ℕ → ℕ → ℕ) (k : ℕ)

/-- The forward slice of sequence `k` reads only row `k` of the
observation batch. -/
theorem alpha_congr (hobs : ∀ t r, obsF k t r = obsF' k t r) :
    ∀ t i, alpha S C transition emission init obsF k t i =
      alpha S C transition emission init obsF' k t i := by
  intro t
  induction t with
  | zero =>
    intro i
    rw [alpha, alpha]
    exact congrArg _ (Finset.sum_congr rfl fun r _ => by rw [hobs])
  | succ t ih =>
    intro i
    rw [alpha, alpha]
    have hfun : (fun j => alpha S C transition emission init obsF k t j + transition j i) =
        fun j => alpha S C transition emission init obsF' k t j + transition j i := by
      funext j
      rw [ih j]
    rw [hfun]
    exact congrArg _ (Finset.sum_congr rfl fun r _ => by rw [hobs])

theorem lweights_congr (hX : ∀ p, X k p = X' k p) (c : ℕ) :
    lweights nC P coef X c k = lweights nC P coef X' c k := by
  have hlp : ∀ c', linPred P coef X k c' = linPred P coef X' k c' := by
    intro c'
    exact Finset.sum_congr rfl fun p _ => by rw [hX]
  rw [lweights, lweights, hlp]
  exact congrArg _ (by rw [Finset.sum_congr rfl fun b _ => by rw [hlp]])

theorem vEmis_congr (hobs : ∀ r t, obsV r t k = obsV' r t k) (j t : ℕ) :
    vEmis C emission obsV k j t = vEmis C emission obsV' k j t :=
  Finset.sum_congr rfl fun r _ => by rw [hobs]

/-- The `delta` table of sequence `k` reads only slice `k` of the
observation batch and row `k` of the design matrix. -/
theorem delta_congr (hX : ∀ p, X k p = X' k p)
    (hobs : ∀ r t, obsV r t k = obsV' r t k) :
    ∀ t j, delta S C nC P transition emission init numberOfStates coef X obsV k t j =
      delta S C nC P transition emission init numberOfStates coef X' obsV' k t j := by
  intro t
  induction t with
  | zero =>
    intro j
    rw [delta, delta, lweights_congr nC P coef X X' k hX,
      vEmis_congr C emission obsV obsV' k hobs]
  | succ t ih =>
    intro j
    rw [delta, delta]
    have hfun : (fun i =>
        delta S C nC P transition emission init numberOfStates coef X obsV k t i +
          transition i j) =
        fun i =>
          delta S C nC P transition emission init numberOfStates coef X' obsV' k t i +
            transition i j := by
      funext i
      rw [ih i]
    rw [hfun, ih, vEmis_congr C emission obsV obsV' k hobs]

theorem phi_congr (hX : ∀ p, X k p = X' k p)
    (hobs : ∀ r t, obsV r t k = obsV' r t k) :
    ∀ t j, phi S C nC P transition emission init numberOfStates coef X obsV k t j =
      phi S C nC P transition emission init numberOfStates coef X' obsV' k t j := by
  intro t j
  cases t with
  | zero => rfl
  | succ t =>
    rw [phi, phi]
    have hfun : (fun i =>
        delta S C nC P transition emission init numberOfStates coef X obsV k t i +
          transition i j) =
        fun i =>
          delta S C nC P transition emission init numberOfStates coef X' obsV' k t i +
            transition i j := by
      funext i
      rw [delta_congr S C nC P transition emission init numberOfStates coef X X'
        obsV obsV' k hX hobs t i]
    rw [hfun]

theorem qRev_congr (T : ℕ) (hX : ∀ p, X k p = X' k p)
    (hobs : ∀ r t, obsV r t k = obsV' r t k) :
    ∀ d, qRev S C nC P transition emission init numberOfStates coef X obsV k T d =
      qRev S C nC P transition emission init numberOfStates coef X' obsV' k T d := by
  intro d
  induction d with
  | zero =>
    rw [qRev, qRev]
    have hfun : (fun j =>
        delta S C nC P transition emission init numberOfStates coef X obsV k (T - 1) j) =
        fun j =>
          delta S C nC P transition emission init numberOfStates coef X' obsV' k (T - 1) j := by
      funext j
      rw [delta_congr S C nC P transition emission init numberOfStates coef X X'
        obsV obsV' k hX hobs (T - 1) j]
    rw [hfun]
  | succ d ih =>
    rw [qRev, qRev, ih,
      phi_congr S C nC P transition emission init numberOfStates coef X X'
        obsV obsV' k hX hobs]

/-- **C6.** Per-sequence locality of both engines: if two input batches
agree on the shared model parameters, on sequence `k`'s observations,
and (for `viterbix`) on sequence `k`'s row of the design matrix, then
the forward slice `alpha(:, :, k)` and the returned pair
`(q(k, :), logp(k))` are identical, regardless of every other
sequence's observations and covariates. -/
theorem sequence_independence (T : ℕ)
    (hF : ∀ t r, obsF k t r = obsF' k t r)
    (hX : ∀ p, X k p = X' k p)
    (hV : ∀ r t, obsV r t k = obsV' r t k) :
    (∀ t i, alpha S C transition emission init obsF k t i =
      alpha S C transition emission init obsF' k t i) ∧
    (∀ t, q S C nC P transition emission init numberOfStates coef X obsV k T t =
      q S C nC P transition emission init numberOfStates coef X' obsV' k T t) ∧
    logp S C nC P transition emission init numberOfStates coef X obsV k T =
      logp S C nC P transition emission init numberOfStates coef X' obsV' k T := by
  refine ⟨alpha_congr S C transition emission init obsF obsF' k hF, ?_, ?_⟩
  · intro t
    rw [q, q, qRev_congr S C nC P transition emission init numberOfStates coef X X'
      obsV obsV' k T hX hV]
  · rw [logp, logp]
    unfold vecMax
    have hfun : (fun j =>
        delta S C nC P transition emission init numberOfStates coef X obsV k (T - 1) j) =
        fun j =>
          delta S C nC P transition emission init numberOfStates coef X' obsV' k (T - 1) j := by
      funext j
      rw [delta_congr S C nC P transition emission init numberOfStates coef X X'
        obsV obsV' k hX hV (T - 1) j]
    rw [hfun]

/-- Witness for `sequence_independence`: the batches differ outside
sequence `k = 1` but agree on its slice. -/
theorem sequence_independence_witness :
    (∀ t r : ℕ, (fun (k' _ _ : ℕ) => k') 1 t r = (fun (k' _ _ : ℕ) => k' * k') 1 t r) ∧
    (∀ p : ℕ, (fun (k' _ : ℕ) => (k' : ℝ)) 1 p =
      (fun (k' _ : ℕ) => (k' : ℝ) * (k' : ℝ)) 1 p) ∧
    (∀ r t : ℕ, (fun (_ _ k' : ℕ) => k') r t 1 = (fun (_ _ k' : ℕ) => k' * k') r t 1) ∧
    ∀ t i, alpha 2 1 (fun _ _ => (0 : ℝ)) (fun _ _ _ => (0 : ℝ)) (fun _ => (0 : ℝ))
        (fun (k' _ _ : ℕ) => k') 1 t i =
      alpha 2 1 (fun _ _ => (0 : ℝ)) (fun _ _ _ => (0 : ℝ)) (fun _ => (0 : ℝ))
        (fun (k' _ _ : ℕ) => k' * k') 1 t i := by
  refine ⟨fun t r => rfl, fun p => by norm_num, fun r t => rfl, ?_⟩
  exact (sequence_independence 2 1 1 1 (fun _ _ => (0 : ℝ)) (fun _ _ _ => (0 : ℝ))
    (fun _ => (0 : ℝ)) [2] (fun _ _ => (0 : ℝ)) (fun (k' _ : ℕ) => (k' : ℝ))
    (fun (k' _ : ℕ) => (k' : ℝ) * (k' : ℝ)) (fun (k' _ _ : ℕ) => k')
    (fun (k' _ _ : ℕ) => k' * k')
    (fun (_ _ k' : ℕ) => k') (fun (_ _ k' : ℕ) => k' * k') 1 2
    (fun t r => rfl) (fun p => by norm_num) (fun r t => rfl)).1

end Independence

section StartCongr

variable (S C nC nC' P P' : ℕ) (transition : ℕ → ℕ → ℝ) (emission : ℕ → ℕ → ℕ → ℝ)
variable (init init' : ℕ → ℝ) (numberOfStates numberOfStates' : List ℕ)
variable (coef coef' X X' : ℕ → ℕ → ℝ) (obs : ℕ → ℕ → ℕ → ℕ) (k : ℕ)

/-- The `delta` table depends on `init`, `coef`, `X` and
`numberOfStates` only through the combined initial column
`init + reparma(lweights.col(k))` on the valid states `j < S`. -/
theorem delta_start_congr
    (hstart : ∀ j, j < S →
      init j + lweights nC P coef X (clusterOf numberOfStates j) k =
        init' j + lweights nC' P' coef' X' (clusterOf numberOfStates' j) k) :
    ∀ t j, j < S →
      delta S C nC P transition emission init numberOfStates coef X obs k t j =
        delta S C nC' P' transition emission init' numberOfStates' coef' X' obs k t j := by
  intro t
  induction t with
  | zero =>
    intro j hj
    rw [delta, delta, hstart j hj]
  | succ t ih =>
    intro j _
    rw [delta, delta]
    have hS' : 0 < S := by
      rcases Nat.eq_zero_or_pos S with h0 | h0
      · omega
      · exact h0
    have ha : argmaxFirst (fun i =>
        delta S C nC P transition emission init numberOfStates coef X obs k t i +
          transition i j) S =
        argmaxFirst (fun i =>
          delta S C nC' P' transition emission init' numberOfStates' coef' X' obs k t i +
            transition i j) S :=
      argmaxFirst_congr _ _ S fun i hi => by rw [ih i hi]
    rw [ha, ih _ (argmaxFirst_lt _ S hS')]

theorem qRev_start_congr (T : ℕ) (hS : 0 < S)
    (hstart : ∀ j, j < S →
      init j + lweights nC P coef X (clusterOf numberOfStates j) k =
        init' j + lweights nC' P' coef' X' (clusterOf numberOfStates' j) k) :
    ∀ d, qRev S C nC P transition emission init numberOfStates coef X obs k T d =
      qRev S C nC' P' transition emission init' numberOfStates' coef' X' obs k T d := by
  have hd := delta_start_congr S C nC nC' P P' transition emission init init'
    numberOfStates numberOfStates' coef coef' X X' obs k hstart
  intro d
  induction d with
  | zero =>
    rw [qRev, qRev]
    exact argmaxFirst_congr _ _ S fun j hj => hd (T - 1) j hj
  | succ d ih =>
    rw [qRev, qRev, ih]
    cases h : T - 1 - d with
    | zero => rfl
    | succ u =>
      rw [phi, phi]
      exact argmaxFirst_congr _ _ S fun i hi => by rw [hd u i hi]

theorem logp_start_congr (T : ℕ) (hS : 0 < S)
    (hstart : ∀ j, j < S →
      init j + lweights nC P coef X (clusterOf numberOfStates j) k =
        init' j + lweights nC' P' coef' X' (clusterOf numberOfStates' j) k) :
    logp S C nC P transition emission init numberOfStates coef X obs k T =
      logp S C nC' P' transition emission init' numberOfStates' coef' X' obs k T := by
  rw [logp, logp]
  exact vecMax_congr _ _ S hS fun j hj =>
    delta_start_congr S C nC nC' P P' transition emission init init'
      numberOfStates numberOfStates' coef coef' X X' obs k hstart (T - 1) j hj

end StartCongr

section SingleCluster

variable (S C P P' : ℕ) (transition : ℕ → ℕ → ℝ) (emission : ℕ → ℕ → ℕ → ℝ)
variable (init : ℕ → ℝ) (coef coef' X X' : ℕ → ℕ → ℝ)
variable (obs : ℕ → ℕ → ℕ → ℕ) (k : ℕ)

/-- With a single mixture cluster the softmax of the one-element column
is 1, so its log-weight is exactly 0, for every sequence and every
coefficient/design matrix. -/
theorem lweights_single (k' : ℕ) : lweights 1 P coef X 0 k' = 0 := by
  rw [lweights, Finset.sum_range_one, div_self (Real.exp_ne_zero _), Real.log_one]

/-- **C10.** With exactly one mixture cluster (`numberOfStates = [S]`,
one coefficient column) the mixture log-weight is exactly 0 for every
sequence, the initial `delta` column is `init` plus the emission
log-probabilities alone, and the outputs `q` and `logp` of `viterbix`
do not depend on `coef` or on the design matrix `X`. -/
theorem single_cluster (T : ℕ) (hS : 0 < S) (hT : 0 < T) :
    (∀ k', lweights 1 P coef X 0 k' = 0) ∧
    (∀ j, j < S →
      delta S C 1 P transition emission init [S] coef X obs k 0 j =
        init j + vEmis C emission obs k j 0) ∧
    (∀ t, q S C 1 P transition emission init [S] coef X obs k T t =
      q S C 1 P' transition emission init [S] coef' X' obs k T t) ∧
    logp S C 1 P transition emission init [S] coef X obs k T =
      logp S C 1 P' transition emission init [S] coef' X' obs k T := by
  have hcl : ∀ j, j < S → clusterOf [S] j = 0 := by
    intro j hj
    rw [clusterOf, if_pos hj]
  have hstart : ∀ j, j < S →
      init j + lweights 1 P coef X (clusterOf [S] j) k =
        init j + lweights 1 P' coef' X' (clusterOf [S] j) k := by
    intro j hj
    rw [hcl j hj, lweights_single, lweights_single]
  refine ⟨fun k' => lweights_single P coef X k', ?_, ?_, ?_⟩
  · intro j hj
    rw [delta, hcl j hj, lweights_single, add_zero]
  · intro t
    rw [q, q, qRev_start_congr S C 1 1 P P' transition emission init init [S] [S]
      coef coef' X X' obs k T hS hstart]
  · exact logp_start_congr S C 1 1 P P' transition emission init init [S] [S]
      coef coef' X X' obs k T hS hstart

/-- Witness for `single_cluster` at a concrete 2-state model with two
different coefficient/design matrices. -/
theorem single_cluster_witness :
    (0 : ℕ) < 2 ∧ (0 : ℕ) < 1 ∧
    logp 2 1 1 1 (fun _ _ => (0 : ℝ)) (fun _ _ _ => (0 : ℝ)) (fun _ => (0 : ℝ)) [2]
        (fun _ _ => (0 : ℝ)) (fun _ _ => (0 : ℝ)) (fun _ _ _ => 0) 0 1 =
      logp 2 1 1 1 (fun _ _ => (0 : ℝ)) (fun _ _ _ => (0 : ℝ)) (fun _ => (0 : ℝ)) [2]
        (fun _ _ => (1 : ℝ)) (fun _ _ => (2 : ℝ)) (fun _ _ _ => 0) 0 1 := by
  refine ⟨by decide, by decide, ?_⟩
  exact (single_cluster 2 1 1 1 (fun _ _ => (0 : ℝ)) (fun _ _ _ => (0 : ℝ))
    (fun _ => (0 : ℝ)) (fun _ _ => (0 : ℝ)) (fun _ _ => (1 : ℝ)) (fun _ _ => (0 : ℝ))
    (fun _ _ => (2 : ℝ)) (fun _ _ _ => 0) 0 1 (by decide) (by decide)).2.2.2

end SingleCluster

section InitLength

variable (S C nC P : ℕ) (transition : ℕ → ℕ → ℝ) (emission : ℕ → ℕ → ℕ → ℝ)
variable (init init' : ℕ → ℝ) (numberOfStates : List ℕ) (coef X : ℕ → ℕ → ℝ)
variable (obs : ℕ → ℕ → ℕ → ℕ) (k : ℕ)

/-- `viterbix` sums `init` entry-wise with the `reparma`-expanded
mixture log-weights (one entry per state, `S` in total): with two
clusters of one state each, `init` indexed by the full state space
coincides with `init` indexed per cluster, so the distinction shows
with one cluster of two states, where the computation reads `init`
beyond index `Sc - 1 = 0`. Here the two `init` vectors agree on every
index below `Sc = 1` (the cluster count), yet `viterbix` returns
different log-probabilities: `init` is a length-`S` vector, not a
length-`Sc` one. -/
theorem init_length_counterexample :
    (∀ j, j < 1 → (if j = 0 then (0 : ℝ) else 1) = 0) ∧
    logp 2 1 1 1 (fun _ _ => (0 : ℝ)) (fun _ _ _ => (0 : ℝ))
        (fun j => if j = 0 then (0 : ℝ) else 1) [2] (fun _ _ => (0 : ℝ))
        (fun _ _ => (0 : ℝ)) (fun _ _ _ => 0) 0 1 ≠
      logp 2 1 1 1 (fun _ _ => (0 : ℝ)) (fun _ _ _ => (0 : ℝ)) (fun _ => (0 : ℝ)) [2]
        (fun _ _ => (0 : ℝ)) (fun _ _ => (0 : ℝ)) (fun _ _ _ => 0) 0 1 := by
  constructor
  · intro j hj
    have hj0 : j = 0 := by omega
    simp [hj0]
  · have hlw : lweights 1 1 (fun _ _ => (0 : ℝ)) (fun _ _ => (0 : ℝ)) 0 0 = 0 :=
      lweights_single 1 (fun _ _ => (0 : ℝ)) (fun _ _ => (0 : ℝ)) 0
    have hA : ∀ j, j < 2 →
        delta 2 1 1 1 (fun _ _ => (0 : ℝ)) (fun _ _ _ => (0 : ℝ))
            (fun j' => if j' = 0 then (0 : ℝ) else 1) [2] (fun _ _ => (0 : ℝ))
            (fun _ _ => (0 : ℝ)) (fun _ _ _ => 0) 0 0 j =
          if j = 0 then (0 : ℝ) else 1 := by
      intro j hj
      rw [delta, clusterOf, if_pos hj, hlw, vEmis]
      simp
    have hB : ∀ j, j < 2 →
        delta 2 1 1 1 (fun _ _ => (0 : ℝ)) (fun _ _ _ => (0 : ℝ)) (fun _ => (0 : ℝ)) [2]
            (fun _ _ => (0 : ℝ)) (fun _ _ => (0 : ℝ)) (fun _ _ _ => 0) 0 0 j = 0 := by
      intro j hj
      rw [delta, clusterOf, if_pos hj, hlw, vEmis]
      simp
    have hA0 := hA 0 (by norm_num)
    have hA1 := hA 1 (by norm_num)
    have hB0 := hB 0 (by norm_num)
    have hB1 := hB 1 (by norm_num)
    rw [logp, logp, vecMax, vecMax]
    simp only [Nat.sub_self]
    rw [argmaxFirst_two, argmaxFirst_two]
    norm_num [hA0, hA1, hB0, hB1]

/-- **C9 (amended).** `viterbix` takes an initial log-distribution of
length `S` (the full expanded state space): the initial `delta` column
adds to each state's `init` entry the log-weight of its cluster (via
the `reparma` expansion of the length-`Sc` weight vector), and the
outputs are well-defined under that length-`S` shape — they depend on
`init` only through its entries at indices `j < S`. -/
theorem init_full_length (T : ℕ) (hS : 0 < S)
    (hinit : ∀ j, j < S → init j = init' j) :
    (∀ j, delta S C nC P transition emission init numberOfStates coef X obs k 0 j =
      init j + lweights nC P coef X (clusterOf numberOfStates j) k +
        vEmis C emission obs k j 0) ∧
    (∀ t, q S C nC P transition emission init numberOfStates coef X obs k T t =
      q S C nC P transition emission init' numberOfStates coef X obs k T t) ∧
    logp S C nC P transition emission init numberOfStates coef X obs k T =
      logp S C nC P transition emission init' numberOfStates coef X obs k T := by
  have hstart : ∀ j, j < S →
      init j + lweights nC P coef X (clusterOf numberOfStates j) k =
        init' j + lweights nC P coef X (clusterOf numberOfStates j) k := by
    intro j hj
    rw [hinit j hj]
  refine ⟨fun j => by rw [delta], ?_, ?_⟩
  · intro t
    rw [q, q, qRev_start_congr S C nC nC P P transition emission init init'
      numberOfStates numberOfStates coef coef X X obs k T hS hstart]
  · exact logp_start_congr S C nC nC P P transition emission init init'
      numberOfStates numberOfStates coef coef X X obs k T hS hstart

/-- Witness for `init_full_length`: two length-2 `init` vectors agreeing
on indices below `S = 2` (and differing beyond) give equal outputs. -/
theorem init_full_length_witness :
    (0 : ℕ) < 2 ∧
    (∀ j, j < 2 → (if j < 2 then (j : ℝ) else 5) = (if j < 2 then (j : ℝ) else 7)) ∧
    logp 2 1 1 1 (fun _ _ => (0 : ℝ)) (fun _ _ _ => (0 : ℝ))
        (fun j => if j < 2 then (j : ℝ) else 5) [2] (fun _ _ => (0 : ℝ))
        (fun _ _ => (0 : ℝ)) (fun _ _ _ => 0) 0 1 =
      logp 2 1 1 1 (fun _ _ => (0 : ℝ)) (fun _ _ _ => (0 : ℝ))
        (fun j => if j < 2 then (j : ℝ) else 7) [2] (fun _ _ => (0 : ℝ))
        (fun _ _ => (0 : ℝ)) (fun _ _ _ => 0) 0 1 := by
  refine ⟨by decide, fun j hj => by simp [hj], ?_⟩
  exact (init_full_length 2 1 1 1 (fun _ _ => (0 : ℝ)) (fun _ _ _ => (0 : ℝ))
    (fun j => if j < 2 then (j : ℝ) else 5) (fun j => if j < 2 then (j : ℝ) else 7) [2]
    (fun _ _ => (0 : ℝ)) (fun _ _ => (0 : ℝ)) (fun _ _ _ => 0) 0 1 (by decide)
    (fun j hj => by simp [hj])).2.2

end InitLength

section NegInfinity

/-!
Extended-real model of the same two recursions for the degenerate
log-probability `log 0 = −∞`, represented by `⊥ : WithBot ℝ`:
addition absorbs `⊥` (as IEEE `−∞ + x = −∞`), `exp ⊥ = 0` and
`log 0 = ⊥`. Every operation is total on `WithBot ℝ`, so no undefined
value (NaN) exists in this model.
-/

/-- `exp` extended by `exp (−∞) = 0`. -/
noncomputable def expW (x : WithBot ℝ) : ℝ :=
  WithBot.recBotCoe 0 Real.exp x

/-- `log` on `[0, ∞)` extended by `log 0 = −∞` (the model never takes
the log of a negative number: it is only applied to sums of `expW`). -/
noncomputable def logW (x : ℝ) : WithBot ℝ :=
  if 0 < x then ((Real.log x : ℝ) : WithBot ℝ) else ⊥

theorem expW_bot : expW ⊥ = 0 := rfl

theorem expW_coe (x : ℝ) : expW x = Real.exp x := rfl

theorem expW_nonneg (x : WithBot ℝ) : 0 ≤ expW x := by
  induction x using WithBot.recBotCoe with
  | bot => exact le_refl 0
  | coe x => exact le_of_lt (Real.exp_pos x)

theorem expW_pos (x : WithBot ℝ) (hx : x ≠ ⊥) : 0 < expW x := by
  induction x using WithBot.recBotCoe with
  | bot => exact absurd rfl hx
  | coe x => exact Real.exp_pos x

/-- Modelled from the spec: the `LogSumExp` contract (§4.1,
`return log (Σᵢ exp xᵢ)`; the primitive's source file is not under
src/), here on the extended reals. -/
noncomputable def logSumExpW (x : List (WithBot ℝ)) : WithBot ℝ :=
  logW ((x.map expW).sum)

theorem logSumExpW_eq_bot (x : List (WithBot ℝ)) (h : ∀ v ∈ x, v = ⊥) :
    logSumExpW x = ⊥ := by
  have hsum : (x.map expW).sum = 0 := by
    apply List.sum_eq_zero
    intro v hv
    rcases List.mem_map.mp hv with ⟨w, hw, rfl⟩
    rw [h w hw, expW_bot]
  rw [logSumExpW, hsum, logW, if_neg (lt_irrefl 0)]

theorem logSumExpW_ne_bot (x : List (WithBot ℝ)) (v : WithBot ℝ) (hv : v ∈ x)
    (hvb : v ≠ ⊥) : logSumExpW x ≠ ⊥ := by
  have hle : expW v ≤ (x.map expW).sum :=
    List.single_le_sum (fun y hy => by
      rcases List.mem_map.mp hy with ⟨w, _, rfl⟩
      exact expW_nonneg w) _ (List.mem_map.mpr ⟨v, hv, rfl⟩)
  have hpos : 0 < (x.map expW).sum := lt_of_lt_of_le (expW_pos v hvb) hle
  rw [logSumExpW, logW, if_pos hpos]
  exact WithBot.coe_ne_bot

variable (S C nC P : ℕ) (transition : ℕ → ℕ → WithBot ℝ)
variable (emission : ℕ → ℕ → ℕ → WithBot ℝ) (init : ℕ → WithBot ℝ)
variable (numberOfStates : List ℕ) (coef X : ℕ → ℕ → ℝ)
variable (obsF obsV : ℕ → ℕ → ℕ → ℕ) (k : ℕ)

/-- The forward table of `internalForward` on the extended-real model
(same recursion as `alpha`, with `logSumExp` replaced by its
extended-real contract). -/
noncomputable def alphaW : ℕ → ℕ → WithBot ℝ
  | 0, i => init i + ∑ r ∈ Finset.range C, emission i (obsF k 0 r) r
  | t + 1, i =>
      logSumExpW ((List.range S).map fun j => alphaW t j + transition j i) +
        ∑ r ∈ Finset.range C, emission i (obsF k (t + 1) r) r

/-- The summed emission term of `viterbix` on the extended-real model. -/
noncomputable def vEmisW (j t : ℕ) : WithBot ℝ :=
  ∑ r ∈ Finset.range C, emission j (obsV r t k) r

/-- The `delta` table of `viterbix` on the extended-real model (the
mixture log-weights stay ordinary reals: the softmax of finite linear
predictors is strictly positive, so its log is finite). -/
noncomputable def deltaW : ℕ → ℕ → WithBot ℝ
  | 0, j => init j +
      ((lweights nC P coef X (clusterOf numberOfStates j) k : ℝ) : WithBot ℝ) +
      vEmisW C emission obsV k j 0
  | t + 1, j =>
      deltaW t (argmaxFirst (fun i => deltaW t i + transition i j) S) +
        transition (argmaxFirst (fun i => deltaW t i + transition i j) S) j +
        vEmisW C emission obsV k j (t + 1)

/-- **C7.** `−∞` (i.e. `log 0`) transition entries propagate through
both recursions without special-casing, and never contaminate entries
that remain reachable: a state whose every predecessor contribution at
time `t` is `−∞` gets `alpha`, resp. `delta`, equal to `−∞` at time
`t + 1`; a state with at least one non-`−∞` predecessor contribution
and non-`−∞` emission term stays non-`−∞`. All operations are total on
the extended reals, so no NaN arises. -/
theorem neg_infinity_propagation (t i j : ℕ) (hS : 0 < S) :
    ((∀ j', j' < S →
        alphaW S C transition emission init obsF k t j' + transition j' i = ⊥) →
      alphaW S C transition emission init obsF k (t + 1) i = ⊥) ∧
    ((∃ j', j' < S ∧
        alphaW S C transition emission init obsF k t j' + transition j' i ≠ ⊥) →
      (∑ r ∈ Finset.range C, emission i (obsF k (t + 1) r) r) ≠ ⊥ →
      alphaW S C transition emission init obsF k (t + 1) i ≠ ⊥) ∧
    ((∀ i', i' < S →
        deltaW S C nC P transition emission init numberOfStates coef X obsV k t i' +
          transition i' j = ⊥) →
      deltaW S C nC P transition emission init numberOfStates coef X obsV k (t + 1) j = ⊥) ∧
    ((∃ i', i' < S ∧
        deltaW S C nC P transition emission init numberOfStates coef X obsV k t i' +
          transition i' j ≠ ⊥) →
      vEmisW C emission obsV k j (t + 1) ≠ ⊥ →
      deltaW S C nC P transition emission init numberOfStates coef X obsV k (t + 1) j ≠ ⊥) := by
  refine ⟨?_, ?_, ?_, ?_⟩
  · intro h
    rw [alphaW]
    have hb : logSumExpW ((List.range S).map fun j' =>
        alphaW S C transition emission init obsF k t j' + transition j' i) = ⊥ := by
      apply logSumExpW_eq_bot
      intro v hv
      rcases List.mem_map.mp hv with ⟨j', hj', rfl⟩
      exact h j' (List.mem_range.mp hj')
    rw [hb, WithBot.bot_add]
  · rintro ⟨j', hj', hne⟩ hem
    rw [alphaW]
    have hb : logSumExpW ((List.range S).map fun j' =>
        alphaW S C transition emission init obsF k t j' + transition j' i) ≠ ⊥ :=
      logSumExpW_ne_bot _ _ (List.mem_map.mpr ⟨j', List.mem_range.mpr hj', rfl⟩) hne
    intro hc
    rcases WithBot.add_eq_bot.mp hc with hc' | hc'
    · exact hb hc'
    · exact hem hc'
  · intro h
    rw [deltaW]
    rw [h _ (argmaxFirst_lt _ S hS), WithBot.bot_add]
  · rintro ⟨i', hi', hne⟩ hem
    rw [deltaW]
    have hmax : deltaW S C nC P transition emission init numberOfStates coef X obsV k t
          (argmaxFirst (fun i'' =>
            deltaW S C nC P transition emission init numberOfStates coef X obsV k t i'' +
              transition i'' j) S) +
        transition (argmaxFirst (fun i'' =>
            deltaW S C nC P transition emission init numberOfStates coef X obsV k t i'' +
              transition i'' j) S) j ≠ ⊥ := by
      intro hc
      apply hne
      have hle := le_argmaxFirst (fun i'' =>
        deltaW S C nC P transition emission init numberOfStates coef X obsV k t i'' +
          transition i'' j) S i' hi'
      simp only [] at hle
      rw [hc] at hle
      exact le_bot_iff.mp hle
    intro hc
    rcases WithBot.add_eq_bot.mp hc with hc' | hc'
    · exact hmax hc'
    · exact hem hc'

/-- Witness for `neg_infinity_propagation`: a 1-state model whose only
transition entry is `log 0 = −∞` drives `alpha` and `delta` to `−∞` at
time 1. -/
theorem neg_infinity_propagation_witness :
    (0 : ℕ) < 1 ∧
    alphaW 1 0 (fun _ _ => (⊥ : WithBot ℝ)) (fun _ _ _ => (0 : WithBot ℝ))
        (fun _ => (0 : WithBot ℝ)) (fun _ _ _ => 0) 0 (0 + 1) 0 = ⊥ ∧
    deltaW 1 0 1 1 (fun _ _ => (⊥ : WithBot ℝ)) (fun _ _ _ => (0 : WithBot ℝ))
        (fun _ => (0 : WithBot ℝ)) [1] (fun _ _ => (0 : ℝ)) (fun _ _ => (0 : ℝ))
        (fun _ _ _ => 0) 0 (0 + 1) 0 = ⊥ := by
  refine ⟨by decide, ?_, ?_⟩
  · exact (neg_infinity_propagation 1 0 1 1 (fun _ _ => (⊥ : WithBot ℝ))
      (fun _ _ _ => (0 : WithBot ℝ)) (fun _ => (0 : WithBot ℝ)) [1]
      (fun _ _ => (0 : ℝ)) (fun _ _ => (0 : ℝ)) (fun _ _ _ => 0) (fun _ _ _ => 0) 0
      0 0 0 (by decide)).1 (fun j' _ => WithBot.add_bot _)
  · exact (neg_infinity_propagation 1 0 1 1 (fun _ _ => (⊥ : WithBot ℝ))
      (fun _ _ _ => (0 : WithBot ℝ)) (fun _ => (0 : WithBot ℝ)) [1]
      (fun _ _ => (0 : ℝ)) (fun _ _ => (0 : ℝ)) (fun _ _ _ => 0) (fun _ _ _ => 0) 0
      0 0 0 (by decide)).2.2.1 (fun i' _ => WithBot.add_bot _)

end NegInfinity

section NoValidation

/-- On the empty input the reference `logSumExp` algorithm still
returns a value (the spec calls `n = 0` a precondition violation with
undefined result; in the exact-arithmetic model the returned junk
value is `0 + log 0 = 0`). -/
theorem logSumExp_nil : logSumExp [] = 0 := by
  simp [logSumExp, Real.log_zero]

variable (C nC P : ℕ) (transition : ℕ → ℕ → ℝ) (emission : ℕ → ℕ → ℕ → ℝ)
variable (init : ℕ → ℝ) (numberOfStates : List ℕ) (coef X : ℕ → ℕ → ℝ)
variable (obsF obs : ℕ → ℕ → ℕ → ℕ) (k : ℕ)

/-- **C8 (amended).** Neither engine validates its input: precondition
violations (here the empty state space `S = 0`) are not detected and no
computation is aborted — the recursions run to completion and silently
produce degenerate output: the forward entry degenerates to the bare
emission sum (on top of the junk value `logSumExp` of an empty vector),
`viterbix` returns state index 0 at every step of the path, and
`logp(k)` is read from the nonexistent state 0 of the last `delta`
column. -/
theorem no_validation (T t u i : ℕ) :
    alpha 0 C transition emission init obsF k (t + 1) i =
      logSumExp [] + ∑ r ∈ Finset.range C, emission i (obsF k (t + 1) r) r ∧
    q 0 C nC P transition emission init numberOfStates coef X obs k T u = 0 ∧
    logp 0 C nC P transition emission init numberOfStates coef X obs k T =
      delta 0 C nC P transition emission init numberOfStates coef X obs k (T - 1) 0 := by
  refine ⟨by rw [alpha]; rfl, ?_, ?_⟩
  · have hq : ∀ d, qRev 0 C nC P transition emission init numberOfStates coef X obs k T d
        = 0 := by
      intro d
      induction d with
      | zero => rfl
      | succ d ih =>
        rw [qRev, ih]
        cases h : T - 1 - d with
        | zero => rfl
        | succ v => rfl
    rw [q, hq]
  · rw [logp, vecMax]
    rfl

/-- The claim's fail-fast behaviour is absent at a concrete empty
input: with zero states, `viterbix` silently returns path state 0 and
a `logp` read out of the empty state space, instead of aborting. -/
theorem no_validation_counterexample :
    q 0 1 1 1 (fun _ _ => (0 : ℝ)) (fun _ _ _ => (0 : ℝ)) (fun _ => (0 : ℝ)) []
        (fun _ _ => (0 : ℝ)) (fun _ _ => (0 : ℝ)) (fun _ _ _ => 0) 0 1 0 = 0 ∧
    logp 0 1 1 1 (fun _ _ => (0 : ℝ)) (fun _ _ _ => (0 : ℝ)) (fun _ => (0 : ℝ)) []
        (fun _ _ => (0 : ℝ)) (fun _ _ => (0 : ℝ)) (fun _ _ _ => 0) 0 1 =
      delta 0 1 1 1 (fun _ _ => (0 : ℝ)) (fun _ _ _ => (0 : ℝ)) (fun _ => (0 : ℝ)) []
        (fun _ _ => (0 : ℝ)) (fun _ _ => (0 : ℝ)) (fun _ _ _ => 0) 0 0 0 := by
  constructor
  · rw [q, qRev, argmaxFirst]
  · rw [logp, vecMax]
    rw [show (1 : ℕ) - 1 = 0 from rfl]
    rfl

end NoValidation

end SeqHMM
